import Mathlib

/-!
Shallow embedding of the reporting-simulation and race-call engine of the
election-night display (source: js/core/core.js and js/domain/domain.js).

Modelling conventions:
* JS numbers are modelled as exact rationals (`ℚ`) except where the source
  computes a real power with a fractional exponent (`Math.pow(x, 1.25)` in
  `earlyWeight`), which is modelled over `ℝ` with `Real.rpow`.
* Epoch-millisecond timestamps are integers (`ℤ`).
* A JS value that may be `null`/`undefined`/`NaN` where the code checks for
  it (`Number.isFinite`, `typeof ... === 'number'`, `?? null`) is an
  `Option`.
* The ambient global `STATE.calls` map is passed explicitly (an association
  list mapping district ids to calls); `Map.has`/`Map.get` become `findCall`
  and `Map.set` of a key that is not present becomes a `cons`.
* `String.charCodeAt` (UTF-16 code units) is modelled by `Char.toNat`;
  the two agree on all keys appearing in the data (Basic Multilingual
  Plane / ASCII strings).
-/

namespace ElectionSim

/-! ### Case-insensitive substring matching (models the regexes
`/Seoul/i`, `/Jeon|Jeolla/i`, `/Hamgyeong/i`, `/Pyeong/i`, which are plain
case-insensitive substring tests). -/

/-- ASCII lower-casing of one character (enough for the patterns used). -/
def lowerChar (c : Char) : Char :=
  if 65 ≤ c.toNat ∧ c.toNat ≤ 90 then Char.ofNat (c.toNat + 32) else c

/-- `matchesAt pat l` : does `pat` occur at the head of `l`? -/
def matchesAt : List Char → List Char → Bool
  | [], _ => true
  | _ :: _, [] => false
  | p :: ps, h :: hs => p == h && matchesAt ps hs

/-- Does `pat` occur anywhere in `l`? -/
def containsPat (pat : List Char) : List Char → Bool
  | [] => matchesAt pat []
  | h :: hs => matchesAt pat (h :: hs) || containsPat pat hs

/-- Case-insensitive substring test on strings. -/
def containsCI (hay pat : String) : Bool :=
  containsPat (pat.data.map lowerChar) (hay.data.map lowerChar)

/-! ### core.js : deterministic hash / random source -/

/-- `_hash32(str)` — FNV-1a-style 32-bit string hash:
`h = 2166136261; for c in str { h ^= c; h = Math.imul(h, 16777619); } return h>>>0`.
`Math.imul` followed by the next iteration's coercions is multiplication
mod 2^32; the xor of two values `< 2^32` stays `< 2^32`. -/
def hash32 (s : String) : ℕ :=
  s.data.foldl (fun h c => ((h ^^^ c.toNat) * 16777619) % 4294967296) 2166136261

/-- `_rand01(key)` — hash reduced to `[0,1)` by dividing by 2^32. -/
def rand01 (key : String) : ℚ := (hash32 key : ℚ) / 4294967296

/-! ### core.js : biasVectorFor -/

/-- `biasVectorFor(districtKey, parties, amp)` — zero-mean bias vector.
`raw = parties.map(p => _rand01(districtKey+'|'+p) - 0.5)`;
`mean = raw.sum / (raw.length || 1)`; `vec = raw.map(v => v - mean)`;
`maxAbs = Math.max(1e-9, Math.max(...vec.map(abs)))`;
result pairs each party with `(vec[i]/maxAbs)*amp`.
(`Math.max(...[])` is `-Infinity`, dominated by the `1e-9` floor, so the
fold with neutral `0` below yields the same `maxAbs` in every case:
the entries of `vec.map abs` are nonnegative.) -/
def biasVectorFor (districtKey : String) (parties : List String) (amp : ℚ) :
    List (String × ℚ) :=
  let raw := parties.map (fun p => rand01 (districtKey ++ "|" ++ p) - 1/2)
  let mean := raw.sum / (if raw.length = 0 then 1 else (raw.length : ℚ))
  let vec := raw.map (fun v => v - mean)
  let maxAbs := max (1/1000000000) ((vec.map (fun v => |v|)).foldr max 0)
  (parties.zip vec).map (fun pv => (pv.1, pv.2 / maxAbs * amp))

/-! ### core.js : earlyWeight -/

/-- `earlyWeight(bias, phase, alpha)` —
`influence = Math.pow(1 - clamp(phase,0,1), alpha); w = 1 + bias*influence;
return Math.max(0.2, w)`.  The base `1 - clamp(phase)` is in `[0,1]`;
`Real.rpow` agrees with `Math.pow` there for exponents `≥ 0`
(in particular both give `0 ^ 0 = 1`). -/
noncomputable def earlyWeight (bias phase alpha : ℝ) : ℝ :=
  let influence := (1 - max 0 (min 1 phase)) ^ alpha
  max (1/5) (1 + bias * influence)

/-! ### core.js : apportion -/

/-- `apportion(total, weights)` — largest-remainder apportionment.
`if (!(sum>0) || !(total>0)) return zeros`; otherwise floor the ideal
shares `total*w/sum`, then hand the remaining `total - Σ floors` units to
the entries with the largest fractional parts (stable descending sort, as
JS `Array.prototype.sort` is stable).  Polymorphic over the number field so
the same code runs on `ℚ` (directly testable) and on `ℝ` (as used by
`scaleRow`, whose weights involve `Real.rpow`). -/
def apportion {α : Type} [LinearOrderedField α] [FloorRing α]
    (total : ℤ) (weights : List α) : List ℤ :=
  let s := weights.sum
  if ¬ (0 < s ∧ 0 < total) then weights.map (fun _ => 0)
  else
    let prelim := weights.map (fun w => (total : α) * w / s)
    let floors := prelim.map (fun x => ⌊x⌋)
    let left := total - floors.sum
    let fracs := prelim.enum.map (fun ix => (ix.1, ix.2 - (⌊ix.2⌋ : α)))
    let sorted := fracs.mergeSort (fun a b => decide (b.2 ≤ a.2))
    let bump := (sorted.take left.toNat).map Prod.fst
    floors.enum.map (fun if_ => if if_.1 ∈ bump then if_.2 + 1 else if_.2)

/-! ### domain.js : count window -/

/-- Continuation of `ensureCountWindow` after the supplied window was
rejected: recover the persisted fallback if it has not expired
(`saved.endMs > Date.now()`), else synthesize and persist a fresh
5-minute window.  `saved = none` models an absent/unparseable/non-finite
`localStorage` entry.  The `Bool` records whether a fresh window was
persisted. -/
def countWindowFallback (saved : Option (ℤ × ℤ)) (now : ℤ) : (ℤ × ℤ) × Bool :=
  match saved with
  | some w => if now < w.2 then ((w.1, w.2), false) else ((now, now + 5*60*1000), true)
  | none => ((now, now + 5*60*1000), true)

/-- `ensureCountWindow(election)` — `cs`/`ce` are `Date.parse` of
`election.count_start`/`count_end` (`none` = missing or `NaN`); the window
is accepted when both are finite and `e > s`, otherwise the fallback path
runs. -/
def ensureCountWindow (cs ce : Option ℤ) (saved : Option (ℤ × ℤ)) (now : ℤ) :
    (ℤ × ℤ) × Bool :=
  match cs, ce with
  | some s, some e => if s < e then ((s, e), false) else countWindowFallback saved now
  | some _, none => countWindowFallback saved now
  | none, some _ => countWindowFallback saved now
  | none, none => countWindowFallback saved now

/-! ### domain.js : reporting schedule -/

/-- `Math.round(x)` for JS: `⌊x + 1/2⌋` (rounds half up, also for negative
arguments). -/
def jround (q : ℚ) : ℤ := ⌊q + 1/2⌋

/-- The geographic base fraction chosen by the regex chain in
`assignReportingSchedule`. -/
def scheduleBias (did : String) : ℚ :=
  if containsCI did "Seoul" then 1/4
  else if containsCI did "Jeon" || containsCI did "Jeolla" then 7/20
  else if containsCI did "Hamgyeong" then 13/20
  else if containsCI did "Pyeong" then 11/20
  else 1/2

/-- The per-row body of `assignReportingSchedule`.  `r1`, `r2` are the two
`Math.random()` draws (in `[0,1)`):
`span = Math.max(1, endMs - startMs)`;
`startFrac = min(0.9, max(0.05, bias + (r1-0.5)*0.3))`;
`endFrac = min(1.0, max(startFrac+0.05, startFrac + 0.25 + r2*0.25))`;
`report_start/report_end = Math.round(startMs + frac*span)`. -/
def assignScheduleRow (startMs endMs : ℤ) (r1 r2 : ℚ) (did : String) : ℤ × ℤ :=
  let span : ℚ := max 1 ((endMs - startMs : ℤ) : ℚ)
  let bias := scheduleBias did
  let startFrac := min (9/10) (max (1/20) (bias + (r1 - 1/2) * (3/10)))
  let endFrac := min 1 (max (startFrac + 1/20) (startFrac + 1/4 + r2 * (1/4)))
  (jround ((startMs : ℚ) + startFrac * span), jround ((startMs : ℚ) + endFrac * span))

/-- `assignReportingSchedule(rows, startMs, endMs)` — maps the per-row body
over the district ids, drawing the row's two random values from the
injected source `rand` (design note §9: the true-random jitter is injected
as a parameter). -/
def assignReportingSchedule (ids : List String) (startMs endMs : ℤ)
    (rand : ℕ → ℚ × ℚ) : List (String × ℤ × ℤ) :=
  ids.enum.map (fun iid =>
    (iid.2, assignScheduleRow startMs endMs (rand iid.1).1 (rand iid.1).2 iid.2))

/-! ### core.js : topTwo / raceCallStatus -/

/-- A live row as consumed by the race-call code.  `phase?` is `_phase`
when it is a number; `totalVotes` is `_totalVotes || 0`; `share p` is
`row._party[p]?.share` when that is a finite number. -/
structure LiveRow where
  district_id : String
  phase? : Option ℚ
  totalVotes : ℤ
  share : String → Option ℚ

/-- `s > cur.share` where `cur.share` starts at `-Infinity`
(`cur = none` models `{key: null, share: -Infinity}`). -/
def beatsShare (s : ℚ) : Option (String × ℚ) → Bool
  | none => true
  | some ks => decide (ks.2 < s)

/-- `topTwo(row, parties)` — single pass keeping the two highest finite
shares; on an exact tie the earlier party keeps the leader slot. -/
def topTwo (row : LiveRow) (parties : List String) :
    Option (String × ℚ) × Option (String × ℚ) :=
  parties.foldl (fun lr p =>
    match row.share p with
    | none => lr
    | some s =>
      if beatsShare s lr.1 then (some (p, s), lr.1)
      else if beatsShare s lr.2 then (lr.1, some (p, s))
      else lr) (none, none)

/-- A `{phase, lead}` call rule. -/
structure CallRule where
  phase : ℚ
  lead : ℚ

/-- `DEFAULT_CALL_RULES`. -/
def DEFAULT_CALL_RULES : List CallRule :=
  [⟨99/100, 1/2⟩, ⟨92/100, 12⟩, ⟨85/100, 18⟩, ⟨75/100, 25⟩]

/-- The result record of `raceCallStatus`. -/
structure RaceStatus where
  called : Bool
  lead : ℚ
  phase : ℚ
  label : String
  leader : Option (String × ℚ)
  runnerUp : Option (String × ℚ)

/-- `phase = typeof row._phase === 'number' ? row._phase
: ((row?._totalVotes||0) > 0 ? 1 : 0)`. -/
def phaseOf (row : LiveRow) : ℚ :=
  match row.phase? with
  | some q => q
  | none => if 0 < row.totalVotes then 1 else 0

/-- The `lead` computed by `raceCallStatus`: `leader.share -
runnerUp.share` when both are finite, else `0`. -/
def leadOf (row : LiveRow) (parties : List String) : ℚ :=
  match (topTwo row parties).1, (topTwo row parties).2 with
  | some ls, some rs => ls.2 - rs.2
  | _, _ => 0

/-- `raceCallStatus(row, parties, rules)`.  (Finiteness of a share is the
`Option` being `some`; a difference of two rationals is always finite, so
the JS `Number.isFinite(lead)` guard in the full-phase branch is always
true here.) -/
def raceCallStatus (row : LiveRow) (parties : List String) (rules : List CallRule) :
    RaceStatus :=
  let phase := phaseOf row
  let t2 := topTwo row parties
  let lead : ℚ := leadOf row parties
  if 999/1000 ≤ phase then
    let called := decide (0 < lead)
    ⟨called, lead, phase, if called then "called" else "tossup", t2.1, t2.2⟩
  else
    let rr := if rules.isEmpty then DEFAULT_CALL_RULES else rules
    let called := rr.any (fun r => decide (r.phase ≤ phase) && decide (r.lead ≤ lead))
    ⟨called, lead, phase,
      if called then "called" else if 4 ≤ lead then "lean" else "tossup",
      t2.1, t2.2⟩

/-! ### domain.js : updateCalls -/

/-- A recorded call `{winner, at}` (`at` is not a legal Lean field name;
`atMs` carries the `at` timestamp). -/
structure Call where
  winner : String
  atMs : ℤ
deriving DecidableEq

/-- `STATE.calls.get(id)` over the association-list model of the `Map`. -/
def findCall : List (String × Call) → String → Option Call
  | [], _ => none
  | kc :: rest, id => if kc.1 = id then some kc.2 else findCall rest id

/-- One iteration of the `for (const r of rowsLive)` loop in
`updateCalls`: an already-registered district keeps its stored call;
otherwise the race is evaluated and, when called with a non-null leader
key, `{winner, at: now}` is inserted.  The second component collects each
row's assigned `_call`. -/
def updateCallsStep (parties : List String) (rules : List CallRule) (now : ℤ)
    (acc : List (String × Call) × List (String × Option Call)) (r : LiveRow) :
    List (String × Call) × List (String × Option Call) :=
  let id := r.district_id
  match findCall acc.1 id with
  | some c => (acc.1, acc.2 ++ [(id, some c)])
  | none =>
    let st := raceCallStatus r parties rules
    let t2 := topTwo r parties
    match (if st.called then t2.1 else none) with
    | some ks => ((id, ⟨ks.1, now⟩) :: acc.1, acc.2 ++ [(id, some ⟨ks.1, now⟩)])
    | none => (acc.1, acc.2 ++ [(id, none)])

/-- `updateCalls(rowsLive, parties)` — threads the registry through the
rows; returns the updated registry and the `_call` assigned to each row
(paired with the row's district id, in row order). -/
def updateCalls (calls : List (String × Call)) (rows : List LiveRow)
    (parties : List String) (rules : List CallRule) (now : ℤ) :
    List (String × Call) × List (String × Option Call) :=
  rows.foldl (updateCallsStep parties rules now) (calls, [])

/-! ### domain.js : scaleRowsBySchedule -/

/-- A row with its reporting schedule, as consumed by
`scaleRowsBySchedule`.  `votes p` models `Number(row[`p_votes`])`
(`none` = field missing or `NaN`, the `|| 0` default applies). -/
structure SchedRow where
  district_id : String
  votes : String → Option ℝ
  report_start : ℤ
  report_end : ℤ

/-- The phase computation of `scaleRowsBySchedule`:
`if (now >= re) phase = 1; else if (now > rs) phase = (now-rs)/Math.max(1, re-rs); else 0`. -/
def schedPhase (rs re now : ℤ) : ℚ :=
  if re ≤ now then 1
  else if rs < now then ((now - rs : ℤ) : ℚ) / max 1 ((re - rs : ℤ) : ℚ)
  else 0

/-- JS `Math.round` on the reals. -/
noncomputable def jroundR (x : ℝ) : ℤ := ⌊x + 1/2⌋

/-- The live row produced by `scaleRowsBySchedule` (the fields the core
adds: `P_votes_live` per party in party order, `_party[P] = {votes,
share}`, `_totalVotes`, `_phase`). -/
structure LiveOut where
  district_id : String
  votesLive : List (String × ℤ)
  party : List (String × ℤ × Option ℝ)
  totalVotes : ℤ
  phase : ℚ

/-- The per-row body of `scaleRowsBySchedule`:
`finals = parties.map(p => Math.max(0, Number(row[p_votes]) || 0))`;
`reported = Math.max(0, Math.round(totalFinal * phase))`;
`weights = finals.map((v,i) => v * earlyWeight(biases[parties[i]] || 0, phase, 1.25))`
(since `finals` is itself `parties.map`, the index pairing is written as a
single map over `parties`); `alloc = apportion(reported, weights)`;
`total = Σ alloc` over the party indices; each party's share is
`total ? vLive/total*100 : null`. -/
noncomputable def scaleRow (parties : List String) (now : ℤ) (row : SchedRow) : LiveOut :=
  let phase := schedPhase row.report_start row.report_end now
  let finals : List ℝ := parties.map (fun p => max 0 ((row.votes p).getD 0))
  let totalFinal := finals.sum
  let reported : ℤ := max 0 (jroundR (totalFinal * (phase : ℝ)))
  let biases := biasVectorFor row.district_id parties (1/5)
  let weights : List ℝ := parties.map (fun p =>
    (max 0 ((row.votes p).getD 0)) *
      earlyWeight (((List.lookup p biases).getD 0 : ℚ) : ℝ) (phase : ℝ) (5/4))
  let alloc := apportion reported weights
  let votesLive := parties.zip alloc
  let total := (votesLive.map Prod.snd).sum
  { district_id := row.district_id
  , votesLive := votesLive
  , party := votesLive.map (fun pv =>
      (pv.1, pv.2, if total = 0 then none else some ((pv.2 : ℝ) / (total : ℝ) * 100)))
  , totalVotes := total
  , phase := phase }

/-- `scaleRowsBySchedule(rowsWithSched, parties, now)`. -/
noncomputable def scaleRowsBySchedule (rows : List SchedRow) (parties : List String)
    (now : ℤ) : List LiveOut :=
  rows.map (scaleRow parties now)

/-! ### domain.js : computeNational -/

/-- A live row as consumed by `computeNational`.  `votesLive p` models
`r[`p_votes_live`] || 0`; `eligible` is `Number(r.eligible_voters_est) || 0`;
`turnout` is `Number(r.turnout_est ?? r.turnout) || 0`. -/
structure NatRow where
  votesLive : String → ℤ
  eligible : ℚ
  phase? : Option ℚ
  turnout : ℚ

/-- The per-row phase used by `computeNational`:
`typeof r._phase === 'number' ? r._phase : (rowTot > 0 ? 1 : 0)`. -/
def natPhase (parties : List String) (r : NatRow) : ℚ :=
  match r.phase? with
  | some q => q
  | none => if 0 < (parties.map r.votesLive).sum then 1 else 0

/-- The loop accumulator of `computeNational`. -/
structure NatAcc where
  totals : List (String × ℤ)
  ballots : ℤ
  eligibleWeighted : ℚ
  turnoutWeighted : ℚ

/-- `totals[p]` (always present: `totals` is initialized from `parties`). -/
def findVal : List (String × ℤ) → String → ℤ
  | [], _ => 0
  | kv :: rest, p => if kv.1 = p then kv.2 else findVal rest p

/-- One iteration of the `for (const r of rows)` loop in `computeNational`. -/
def natStep (parties : List String) (a : NatAcc) (r : NatRow) : NatAcc :=
  let rowTot := (parties.map r.votesLive).sum
  let phase := natPhase parties r
  { totals := a.totals.map (fun pv => (pv.1, pv.2 + r.votesLive pv.1))
  , ballots := a.ballots + rowTot
  , eligibleWeighted := a.eligibleWeighted + r.eligible * phase
  , turnoutWeighted := a.turnoutWeighted + r.turnout * r.eligible * phase }

/-- The result record of `computeNational`. -/
structure NationalResult where
  totals : List (String × ℤ)
  natPct : List (String × ℚ)
  ballots : ℤ
  eligible : ℚ
  natTurnout : ℚ
  ordered : List String

/-- `computeNational(rows, parties)` — party totals, national percentages,
phase-weighted national turnout, and the parties ordered by descending
totals (stable sort, as JS `sort`). -/
def computeNational (rows : List NatRow) (parties : List String) : NationalResult :=
  let acc := rows.foldl (natStep parties) ⟨parties.map (fun p => (p, 0)), 0, 0, 0⟩
  { totals := acc.totals
  , natPct := parties.map (fun p =>
      (p, if acc.ballots = 0 then 0
          else (findVal acc.totals p : ℚ) / (acc.ballots : ℚ) * 100))
  , ballots := acc.ballots
  , eligible := acc.eligibleWeighted
  , natTurnout := if acc.eligibleWeighted = 0 then 0
                  else acc.turnoutWeighted / acc.eligibleWeighted
  , ordered := parties.mergeSort (fun a b =>
      decide (findVal acc.totals b ≤ findVal acc.totals a)) }

/-! ### Concrete inputs used by witnesses and counterexamples -/

/-- The two-party key list of the end-to-end scenarios. -/
def pAB : List String := ["A", "B"]

/-- A perfectly tied, fully reported district (scenario B). -/
def tiedRow : LiveRow :=
  ⟨"T1", some 1, 1000, fun p => if p = "A" then some 50 else if p = "B" then some 50 else none⟩

/-- A fully-reported zero-vote district: `_totalVotes = 0`, all shares
`null`. -/
def zeroRow : LiveRow := ⟨"Z1", some 1, 0, fun _ => none⟩

/-- A stored call for district `T1` (used to exercise idempotence). -/
def storedCall : Call := ⟨"A", 42⟩

/-- Scenario C, fully reported district: phase 1, turnout 80, eligible 1000. -/
def natRowFull : NatRow := ⟨fun _ => 0, 1000, some 1, 80⟩

/-- Scenario C, unreported district: phase 0, eligible 500, turnout
irrelevant (55). -/
def natRowEmpty : NatRow := ⟨fun _ => 0, 500, some 0, 55⟩

/-- Scenario A's district row with its schedule. -/
noncomputable def schedRowA : SchedRow :=
  ⟨"D1", fun p => if p = "A" then some 600 else if p = "B" then some 400 else none, 0, 100⟩

/-! ### Helper lemmas about list sums, floors and the bump step -/

section ApportionLemmas

variable {α : Type} [LinearOrderedField α] [FloorRing α]

lemma sum_map_mul_const (c : α) (l : List α) :
    (l.map (fun w => c * w)).sum = c * l.sum := by
  induction l with
  | nil => simp
  | cons x t ih => simp [ih, mul_add]

lemma sum_map_sub_const (c : α) (l : List α) :
    (l.map (fun v => v - c)).sum = l.sum - l.length * c := by
  induction l with
  | nil => simp
  | cons x t ih => simp [ih]; ring

lemma sum_map_floor_le (l : List α) :
    (((l.map (fun x => ⌊x⌋)).sum : ℤ) : α) ≤ l.sum := by
  induction l with
  | nil => simp
  | cons x t ih =>
      simp only [List.map_cons, List.sum_cons]
      rw [Int.cast_add]
      exact add_le_add (Int.floor_le x) ih

lemma sum_le_sum_floor_add_length (l : List α) :
    l.sum ≤ (((l.map (fun x => ⌊x⌋)).sum : ℤ) : α) + l.length := by
  induction l with
  | nil => simp
  | cons x t ih =>
      simp only [List.map_cons, List.sum_cons, List.length_cons]
      push_cast
      push_cast at ih
      have hx := Int.lt_floor_add_one x
      linarith

lemma sum_lt_sum_floor_add_length (l : List α) (hne : l ≠ []) :
    l.sum < (((l.map (fun x => ⌊x⌋)).sum : ℤ) : α) + l.length := by
  cases l with
  | nil => exact absurd rfl hne
  | cons x t =>
      simp only [List.map_cons, List.sum_cons, List.length_cons]
      push_cast
      have hx := Int.lt_floor_add_one x
      have ht := sum_le_sum_floor_add_length t
      push_cast at ht
      linarith

lemma snd_mem_of_mem_enumFrom {β : Type} :
    ∀ (l : List β) (k : ℕ) (p : ℕ × β), p ∈ List.enumFrom k l → p.2 ∈ l
  | [], _, _, h => by simp at h
  | x :: t, k, p, h => by
      rw [List.enumFrom_cons] at h
      rcases List.mem_cons.mp h with h | h
      · subst h; exact List.mem_cons_self _ _
      · exact List.mem_cons_of_mem _ (snd_mem_of_mem_enumFrom t (k+1) p h)

/-- Summing a list after giving `+1` to the positions listed in a
duplicate-free index list `b` that lies inside the enumerated window adds
exactly `b.length`. -/
lemma enumFrom_bump_sum :
    ∀ (l : List ℤ) (k : ℕ) (b : List ℕ), b.Nodup →
      (∀ i ∈ b, k ≤ i ∧ i < k + l.length) →
      ((List.enumFrom k l).map (fun p => if p.1 ∈ b then p.2 + 1 else p.2)).sum
        = l.sum + b.length
  | [], k, b, hnd, hbd => by
      have hb : b = [] := by
        cases b with
        | nil => rfl
        | cons i t =>
            have := hbd i (List.mem_cons_self i t)
            simp at this
            omega
      subst hb
      simp
  | x :: t, k, b, hnd, hbd => by
      rw [List.enumFrom_cons, List.map_cons, List.sum_cons]
      by_cases hk : k ∈ b
      · have hrec := enumFrom_bump_sum t (k+1) (b.erase k) (hnd.erase k)
          (by
            intro i hi
            have hne := (hnd.mem_erase_iff.mp hi).1
            have hmem := (hnd.mem_erase_iff.mp hi).2
            have := hbd i hmem
            simp only [List.length_cons] at this
            omega)
        have hmap : (List.enumFrom (k+1) t).map (fun p => if p.1 ∈ b then p.2 + 1 else p.2)
            = (List.enumFrom (k+1) t).map
                (fun p => if p.1 ∈ b.erase k then p.2 + 1 else p.2) := by
          apply List.map_congr_left
          intro p hp
          obtain ⟨i, v⟩ := p
          have hge := (List.mem_enumFrom hp).1
          have hiff : i ∈ b ↔ i ∈ b.erase k := by
            rw [hnd.mem_erase_iff]
            constructor
            · intro hib
              exact ⟨by omega, hib⟩
            · intro hib
              exact hib.2
          simp only [hiff]
        rw [if_pos hk, hmap, hrec]
        have hlen : b.length = (b.erase k).length + 1 := by
          have h1 := List.length_erase_of_mem hk
          have h2 : 0 < b.length := List.length_pos_of_mem hk
          omega
        simp only [List.sum_cons, hlen]
        push_cast
        ring
      · have hrec := enumFrom_bump_sum t (k+1) b hnd
          (by
            intro i hi
            have := hbd i hi
            have hne : i ≠ k := fun h => hk (h ▸ hi)
            simp only [List.length_cons] at this
            omega)
        rw [if_neg hk, hrec]
        simp only [List.sum_cons]
        ring

lemma apportion_length (total : ℤ) (weights : List α) :
    (apportion total weights).length = weights.length := by
  simp only [apportion]
  split
  · simp
  · simp [List.enum_length]

lemma apportion_sum (total : ℤ) (weights : List α) (hw : ∀ w ∈ weights, 0 ≤ w) :
    (apportion total weights).sum = if 0 < weights.sum ∧ 0 < total then total else 0 := by
  unfold apportion
  by_cases hc : 0 < weights.sum ∧ 0 < total
  · rw [if_neg (not_not_intro hc), if_pos hc]
    obtain ⟨hs, ht⟩ := hc
    have hsne : weights.sum ≠ 0 := ne_of_gt hs
    have hwne : weights ≠ [] := by
      intro h
      rw [h] at hs
      simp at hs
    set prelim : List α := weights.map (fun w => (total : α) * w / weights.sum)
      with hprelim
    have hplen : prelim.length = weights.length := by simp [hprelim]
    have hpne : prelim ≠ [] := by
      simp [hprelim, List.map_eq_nil_iff]
      exact hwne
    have hpsum : prelim.sum = (total : α) := by
      have h1 : prelim = weights.map (fun w => ((total : α) / weights.sum) * w) :=
        List.map_congr_left (fun w _ => by ring)
      rw [h1, sum_map_mul_const, div_mul_cancel₀ _ hsne]
    set floors : List ℤ := prelim.map (fun x => ⌊x⌋) with hfloors
    have hflen : floors.length = prelim.length := by simp [hfloors]
    set F : ℤ := floors.sum with hF
    have hFle : F ≤ total := by
      have := sum_map_floor_le prelim
      rw [hpsum, ← hfloors, ← hF] at this
      exact_mod_cast this
    have hFgt : total < F + prelim.length := by
      have := sum_lt_sum_floor_add_length prelim hpne
      rw [hpsum, ← hfloors, ← hF] at this
      exact_mod_cast this
    set left : ℤ := total - F with hleft
    have hleft0 : 0 ≤ left := by omega
    have hleftlt : left < (prelim.length : ℤ) := by omega
    set fracs := prelim.enum.map (fun ix => (ix.1, ix.2 - (⌊ix.2⌋ : α))) with hfracs
    set sorted := fracs.mergeSort (fun a b => decide (b.2 ≤ a.2)) with hsorted
    set bump := (sorted.take left.toNat).map Prod.fst with hbump
    have hfracs_fst : fracs.map Prod.fst = List.range prelim.length := by
      rw [hfracs, List.map_map]
      have : (Prod.fst ∘ fun ix : ℕ × α => (ix.1, ix.2 - (⌊ix.2⌋ : α))) = Prod.fst := by
        funext ix; rfl
      rw [this, List.enum_map_fst]
    have hperm : sorted.Perm fracs := List.mergeSort_perm fracs _
    have hsperm : (sorted.map Prod.fst).Perm (List.range prelim.length) := by
      rw [← hfracs_fst]
      exact hperm.map Prod.fst
    have hsnodup : (sorted.map Prod.fst).Nodup :=
      hsperm.nodup_iff.mpr (List.nodup_range _)
    have hslen : sorted.length = prelim.length := by
      have h1 := hperm.length_eq
      have h2 : fracs.length = prelim.length := by simp [hfracs, List.enum_length]
      omega
    have hbump_sub : bump.Sublist (sorted.map Prod.fst) := by
      rw [hbump, List.map_take]
      exact List.take_sublist _ _
    have hbump_nodup : bump.Nodup := hbump_sub.nodup hsnodup
    have hbump_mem : ∀ i ∈ bump, i < prelim.length := by
      intro i hi
      have h1 : i ∈ sorted.map Prod.fst := hbump_sub.mem hi
      have h2 : i ∈ List.range prelim.length := hsperm.mem_iff.mp h1
      exact List.mem_range.mp h2
    have hbump_len : bump.length = left.toNat := by
      rw [hbump, List.length_map, List.length_take, hslen]
      have : left.toNat < prelim.length :=
        (Int.toNat_lt hleft0).mpr hleftlt
      omega
    have hbump_sum :
        ((List.enumFrom 0 floors).map
          (fun p => if p.1 ∈ bump then p.2 + 1 else p.2)).sum
          = floors.sum + bump.length := by
      refine enumFrom_bump_sum floors 0 bump hbump_nodup ?_
      intro i hi
      constructor
      · omega
      · have := hbump_mem i hi
        omega
    rw [← List.enum_eq_enumFrom] at hbump_sum
    calc ((floors.enum.map fun if_ => if if_.1 ∈ bump then if_.2 + 1 else if_.2)).sum
        = floors.sum + bump.length := hbump_sum
      _ = F + left := by rw [hbump_len, Int.toNat_of_nonneg hleft0, hF]
      _ = total := by omega
  · rw [if_pos hc, if_neg hc]
    have hz : ∀ (l : List α), (l.map (fun _ => (0 : ℤ))).sum = 0 := by
      intro l
      induction l with
      | nil => simp
      | cons x t ih => simp [ih]
    exact hz weights

lemma apportion_nonneg (total : ℤ) (weights : List α) (hw : ∀ w ∈ weights, 0 ≤ w) :
    ∀ x ∈ apportion total weights, 0 ≤ x := by
  simp only [apportion]
  split
  · intro x hx
    rcases List.mem_map.mp hx with ⟨w, _, rfl⟩
    simp
  · rename_i hc
    rw [not_not] at hc
    obtain ⟨hs, ht⟩ := hc
    intro x hx
    rcases List.mem_map.mp hx with ⟨p, hp, rfl⟩
    rw [List.enum_eq_enumFrom] at hp
    have hmem := snd_mem_of_mem_enumFrom _ 0 p hp
    rcases List.mem_map.mp hmem with ⟨y, hy, hfl⟩
    rcases List.mem_map.mp hy with ⟨w, hwmem, rfl⟩
    have hynn : 0 ≤ (total : α) * w / weights.sum :=
      div_nonneg (mul_nonneg (by exact_mod_cast le_of_lt ht) (hw w hwmem)) (le_of_lt hs)
    have hfl0 : 0 ≤ ⌊(total : α) * w / weights.sum⌋ := Int.floor_nonneg.mpr hynn
    rw [← hfl]
    split <;> omega

end ApportionLemmas

/-! ### C2 — apportionment sum property -/

/-- C2 (amended): for every non-negative integer `total` and every array of
non-negative rational weights **with positive sum**, `apportion(total,
weights)` is an array of non-negative integers of the same length whose sum
equals `total` exactly.  (The unamended claim fails when all weights are
zero: the code's degenerate-case guard returns the all-zero array.) -/
theorem apportion_sum_eq_total (total : ℕ) (weights : List ℚ)
    (hw : ∀ w ∈ weights, 0 ≤ w) (hs : 0 < weights.sum) :
    (apportion (total : ℤ) weights).sum = total ∧
    (apportion (total : ℤ) weights).length = weights.length ∧
    ∀ x ∈ apportion (total : ℤ) weights, 0 ≤ x := by
  refine ⟨?_, apportion_length _ _, apportion_nonneg _ _ hw⟩
  rw [apportion_sum _ _ hw]
  by_cases h : 0 < (total : ℤ)
  · rw [if_pos ⟨hs, h⟩]
  · have h0 : (total : ℤ) = 0 := by omega
    rw [if_neg (by tauto), h0]

/-- Witness for C2's theorem at `total = 3`, `weights = [1, 2]`. -/
theorem apportion_sum_eq_total_witness :
    (apportion ((3 : ℕ) : ℤ) [(1 : ℚ), 2]).sum = 3 ∧
    (apportion ((3 : ℕ) : ℤ) [(1 : ℚ), 2]).length = [(1 : ℚ), 2].length ∧
    ∀ x ∈ apportion ((3 : ℕ) : ℤ) [(1 : ℚ), 2], 0 ≤ x :=
  apportion_sum_eq_total 3 [1, 2]
    (by intro w hw; fin_cases hw <;> norm_num)
    (by norm_num)

/-- C2 counterexample to the claim as stated: with the all-zero
(non-negative) weight vector `[0, 0]` and `total = 5`, the output sums to
`0`, not `5`. -/
theorem apportion_sum_claim_counterexample :
    (apportion (5 : ℤ) [(0 : ℚ), 0]).sum ≠ 5 := by
  have h : apportion (5 : ℤ) [(0 : ℚ), 0] = [0, 0] := by
    simp only [apportion]
    rw [if_pos]
    · simp
    · norm_num
  rw [h]
  decide

/-! ### C6 — early-weight convergence at full reporting -/

/-- C6 (amended): for every bias and every **positive** alpha,
`earlyWeight(bias, 1, alpha) = 1`.  (At `alpha = 0` the claim fails:
`Math.pow(0, 0) = 1`, so the bias does not fade.) -/
theorem earlyWeight_one_at_full_phase (bias alpha : ℝ) (h : 0 < alpha) :
    earlyWeight bias 1 alpha = 1 := by
  simp only [earlyWeight]
  rw [show (1 : ℝ) - max 0 (min 1 1) = 0 by norm_num]
  rw [Real.zero_rpow (ne_of_gt h)]
  rw [mul_zero, add_zero]
  exact max_eq_right (by norm_num)

/-- Witness for C6's theorem at `bias = 7`, `alpha = 2`. -/
theorem earlyWeight_one_at_full_phase_witness :
    (0 : ℝ) < 2 ∧ earlyWeight 7 1 2 = 1 :=
  ⟨by norm_num, earlyWeight_one_at_full_phase 7 2 (by norm_num)⟩

/-- C6 counterexample to the claim as stated ("for every alpha"): at
`alpha = 0` and `bias = 1/2`, `earlyWeight(1/2, 1, 0) = 3/2 ≠ 1`. -/
theorem earlyWeight_alpha_zero_counterexample :
    earlyWeight (1/2) 1 0 ≠ 1 := by
  simp only [earlyWeight]
  rw [show (1 : ℝ) - max 0 (min 1 1) = 0 by norm_num]
  rw [Real.rpow_zero]
  rw [show (1 : ℝ) + 1/2 * 1 = 3/2 by norm_num]
  rw [max_eq_right (by norm_num : (1/5 : ℝ) ≤ 3/2)]
  norm_num

/-! ### C9 — count-window validity and fallback -/

lemma countWindowFallback_cases (saved : Option (ℤ × ℤ)) (now : ℤ)
    (hsaved : ∀ w, saved = some w → w.1 < w.2) :
    (countWindowFallback saved now).1.1 < (countWindowFallback saved now).1.2 ∧
    ((∀ w, saved = some w → w.2 ≤ now) →
      countWindowFallback saved now = ((now, now + 5*60*1000), true)) := by
  cases saved with
  | none =>
      constructor
      · simp [countWindowFallback]
      · intro _
        rfl
  | some w =>
      by_cases h : now < w.2
      · refine ⟨?_, ?_⟩
        · simp [countWindowFallback, h]
          exact hsaved w rfl
        · intro hexp
          exact absurd (hexp w rfl) (by omega)
      · constructor
        · simp [countWindowFallback, h]
        · intro _
          simp [countWindowFallback, h]

/-- C9 (amended): `ensureCountWindow` always returns a window with
`startMs < endMs` **provided any recovered persisted fallback is itself
well-formed** (`startMs < endMs`, which holds for every window the
function itself persists); and whenever the supplied metadata is absent or
invalid and no unexpired persisted fallback exists, it returns the fresh
window `(now, now + 5 minutes)` and persists it.  (The unamended claim
fails for an arbitrary corrupted persisted state: the code only checks
`saved.endMs > now`, not `saved.endMs > saved.startMs`.) -/
theorem ensureCountWindow_valid (cs ce : Option ℤ) (saved : Option (ℤ × ℤ)) (now : ℤ)
    (hsaved : ∀ w, saved = some w → w.1 < w.2) :
    (ensureCountWindow cs ce saved now).1.1 < (ensureCountWindow cs ce saved now).1.2 ∧
    ((∀ s e, cs = some s → ce = some e → ¬ s < e) →
     (∀ w, saved = some w → w.2 ≤ now) →
     ensureCountWindow cs ce saved now = ((now, now + 5*60*1000), true)) := by
  have hfb := countWindowFallback_cases saved now hsaved
  rcases cs with _ | s
  · rcases ce with _ | e
    · exact ⟨hfb.1, fun _ hexp => hfb.2 hexp⟩
    · exact ⟨hfb.1, fun _ hexp => hfb.2 hexp⟩
  · rcases ce with _ | e
    · exact ⟨hfb.1, fun _ hexp => hfb.2 hexp⟩
    · by_cases hse : s < e
      · refine ⟨?_, ?_⟩
        · simp [ensureCountWindow, hse]
        · intro hinv _
          exact absurd hse (hinv s e rfl rfl)
      · constructor
        · simpa [ensureCountWindow, hse] using hfb.1
        · intro _ hexp
          simpa [ensureCountWindow, hse] using hfb.2 hexp

/-- Witness for C9's theorem: no metadata, no persisted state, `now = 0`. -/
theorem ensureCountWindow_valid_witness :
    (ensureCountWindow none none none 0).1.1 < (ensureCountWindow none none none 0).1.2 ∧
    ((∀ s e, (none : Option ℤ) = some s → (none : Option ℤ) = some e → ¬ s < e) →
     (∀ w, (none : Option (ℤ × ℤ)) = some w → w.2 ≤ 0) →
     ensureCountWindow none none none 0 = ((0, 0 + 5*60*1000), true)) :=
  ensureCountWindow_valid none none none 0 (fun w h => nomatch h)

/-- C9 counterexample to the claim as stated: with no metadata and the
corrupted persisted window `{startMs: 100, endMs: 50}` at `now = 0`, the
saved window passes the code's only check (`endMs > now`) and is returned
even though `endMs < startMs`. -/
theorem ensureCountWindow_claim_counterexample :
    ¬ ((ensureCountWindow none none (some (100, 50)) 0).1.1 <
       (ensureCountWindow none none (some (100, 50)) 0).1.2) := by
  decide

/-! ### C1 — call monotonicity / idempotence -/

lemma updateCallsStep_keeps (parties : List String) (rules : List CallRule) (now : ℤ)
    (acc : List (String × Call) × List (String × Option Call)) (r : LiveRow)
    (id : String) (c : Call)
    (h1 : findCall acc.1 id = some c)
    (h2 : ∀ p ∈ acc.2, p.1 = id → p.2 = some c) :
    findCall (updateCallsStep parties rules now acc r).1 id = some c ∧
    ∀ p ∈ (updateCallsStep parties rules now acc r).2, p.1 = id → p.2 = some c := by
  simp only [updateCallsStep]
  cases hfc : findCall acc.1 r.district_id with
  | some c' =>
      simp only [hfc]
      refine ⟨h1, ?_⟩
      intro p hp hpid
      rcases List.mem_append.mp hp with hp | hp
      · exact h2 p hp hpid
      · rcases List.mem_singleton.mp hp with rfl
        simp only at hpid
        rw [hpid] at hfc
        rw [hfc] at h1
        simp only [Option.some.injEq] at h1
        simp [h1]
  | none =>
      simp only [hfc]
      have hne : r.district_id ≠ id := by
        intro h
        rw [h, h1] at hfc
        exact Option.noConfusion hfc
      cases hcl : (if (raceCallStatus r parties rules).called then (topTwo r parties).1 else none) with
      | some ks =>
          simp only [hcl]
          refine ⟨?_, ?_⟩
          · simp only [findCall, if_neg hne]
            exact h1
          · intro p hp hpid
            rcases List.mem_append.mp hp with hp | hp
            · exact h2 p hp hpid
            · rcases List.mem_singleton.mp hp with rfl
              simp only at hpid
              exact absurd hpid hne
      | none =>
          simp only [hcl]
          refine ⟨h1, ?_⟩
          intro p hp hpid
          rcases List.mem_append.mp hp with hp | hp
          · exact h2 p hp hpid
          · rcases List.mem_singleton.mp hp with rfl
            simp only at hpid
            exact absurd hpid hne

lemma updateCalls_go (parties : List String) (rules : List CallRule) (now : ℤ)
    (id : String) (c : Call) :
    ∀ (rows : List LiveRow) (acc : List (String × Call) × List (String × Option Call)),
      findCall acc.1 id = some c →
      (∀ p ∈ acc.2, p.1 = id → p.2 = some c) →
      findCall (rows.foldl (updateCallsStep parties rules now) acc).1 id = some c ∧
      ∀ p ∈ (rows.foldl (updateCallsStep parties rules now) acc).2,
        p.1 = id → p.2 = some c
  | [], _, h1, h2 => ⟨h1, h2⟩
  | r :: rows, acc, h1, h2 => by
      have hstep := updateCallsStep_keeps parties rules now acc r id c h1 h2
      exact updateCalls_go parties rules now id c rows _ hstep.1 hstep.2

/-- C1: once a district id is present in the Call Registry, any invocation
of `updateCalls` — with any row data, parties, rules, and timestamp —
leaves the stored `{winner, at}` entry unchanged, and every processed row
for that district gets exactly the stored entry as its `_call`. -/
theorem updateCalls_monotone_idempotent (calls : List (String × Call))
    (rows : List LiveRow) (parties : List String) (rules : List CallRule) (now : ℤ)
    (id : String) (c : Call) (h : findCall calls id = some c) :
    findCall (updateCalls calls rows parties rules now).1 id = some c ∧
    ∀ p ∈ (updateCalls calls rows parties rules now).2, p.1 = id → p.2 = some c :=
  updateCalls_go parties rules now id c rows (calls, []) h (by intro p hp; cases hp)

/-- Witness for C1's theorem: registry `{T1 ↦ {winner: A, at: 42}}`, one
live row for `T1` (tied at phase 1, whose recomputed status would not call
anyone — yet `_call` is forced to the stored entry). -/
theorem updateCalls_monotone_idempotent_witness :
    findCall (updateCalls [("T1", storedCall)] [tiedRow] pAB [] 7).1 "T1" = some storedCall ∧
    ∀ p ∈ (updateCalls [("T1", storedCall)] [tiedRow] pAB [] 7).2,
      p.1 = "T1" → p.2 = some storedCall :=
  updateCalls_monotone_idempotent [("T1", storedCall)] [tiedRow] pAB [] 7 "T1" storedCall
    (by decide)

/-! ### C10 — zero-vote districts are never called -/

lemma topTwo_all_none (row : LiveRow) :
    ∀ (ps : List String) (acc : Option (String × ℚ) × Option (String × ℚ)),
      (∀ p ∈ ps, row.share p = none) →
      ps.foldl (fun lr p =>
        match row.share p with
        | none => lr
        | some s =>
          if beatsShare s lr.1 then (some (p, s), lr.1)
          else if beatsShare s lr.2 then (lr.1, some (p, s))
          else lr) acc = acc
  | [], _, _ => rfl
  | p :: ps, acc, h => by
      have hp : row.share p = none := h p (List.mem_cons_self p ps)
      have hps : ∀ q ∈ ps, row.share q = none :=
        fun q hq => h q (List.mem_cons_of_mem _ hq)
      rw [List.foldl_cons]
      have hstep :
          (match row.share p with
            | none => acc
            | some s =>
              if beatsShare s acc.1 then (some (p, s), acc.1)
              else if beatsShare s acc.2 then (acc.1, some (p, s))
              else acc) = acc := by
        rw [hp]
      rw [hstep]
      exact topTwo_all_none row ps acc hps

lemma topTwo_eq_none (row : LiveRow) (parties : List String)
    (h : ∀ p ∈ parties, row.share p = none) :
    topTwo row parties = (none, none) :=
  topTwo_all_none row parties (none, none) h

lemma raceCallStatus_zero_shares (row : LiveRow) (parties : List String)
    (rules : List CallRule) (h : ∀ p ∈ parties, row.share p = none) :
    (raceCallStatus row parties rules).lead = 0 ∧
    (raceCallStatus row parties rules).leader = none := by
  simp only [raceCallStatus, leadOf, topTwo_eq_none row parties h]
  split <;> simp

lemma updateCallsStep_zero (parties : List String) (rules : List CallRule) (now : ℤ)
    (acc : List (String × Call) × List (String × Option Call)) (r : LiveRow)
    (id : String)
    (hz : r.district_id = id → ∀ p ∈ parties, r.share p = none)
    (h1 : findCall acc.1 id = none)
    (h2 : ∀ p ∈ acc.2, p.1 = id → p.2 = none) :
    findCall (updateCallsStep parties rules now acc r).1 id = none ∧
    ∀ p ∈ (updateCallsStep parties rules now acc r).2, p.1 = id → p.2 = none := by
  simp only [updateCallsStep]
  cases hfc : findCall acc.1 r.district_id with
  | some c' =>
      simp only [hfc]
      refine ⟨h1, ?_⟩
      intro p hp hpid
      rcases List.mem_append.mp hp with hp | hp
      · exact h2 p hp hpid
      · rcases List.mem_singleton.mp hp with rfl
        simp only at hpid
        rw [hpid] at hfc
        rw [hfc] at h1
        exact Option.noConfusion h1
  | none =>
      simp only [hfc]
      by_cases hid : r.district_id = id
      · have hnone : (topTwo r parties).1 = none := by
          rw [topTwo_eq_none r parties (hz hid)]
        have hcl : (if (raceCallStatus r parties rules).called
            then (topTwo r parties).1 else none) = none := by
          rw [hnone]
          split <;> rfl
        simp only [hcl]
        refine ⟨h1, ?_⟩
        intro p hp hpid
        rcases List.mem_append.mp hp with hp | hp
        · exact h2 p hp hpid
        · rcases List.mem_singleton.mp hp with rfl
          rfl
      · cases hcl : (if (raceCallStatus r parties rules).called
            then (topTwo r parties).1 else none) with
        | some ks =>
            simp only [hcl]
            refine ⟨?_, ?_⟩
            · simp only [findCall, if_neg hid]
              exact h1
            · intro p hp hpid
              rcases List.mem_append.mp hp with hp | hp
              · exact h2 p hp hpid
              · rcases List.mem_singleton.mp hp with rfl
                simp only at hpid
                exact absurd hpid hid
        | none =>
            simp only [hcl]
            refine ⟨h1, ?_⟩
            intro p hp hpid
            rcases List.mem_append.mp hp with hp | hp
            · exact h2 p hp hpid
            · rcases List.mem_singleton.mp hp with rfl
              simp only at hpid
              exact absurd hpid hid

lemma updateCalls_zero_go (parties : List String) (rules : List CallRule) (now : ℤ)
    (id : String) :
    ∀ (rows : List LiveRow) (acc : List (String × Call) × List (String × Option Call)),
      (∀ r ∈ rows, r.district_id = id → ∀ p ∈ parties, r.share p = none) →
      findCall acc.1 id = none →
      (∀ p ∈ acc.2, p.1 = id → p.2 = none) →
      findCall (rows.foldl (updateCallsStep parties rules now) acc).1 id = none ∧
      ∀ p ∈ (rows.foldl (updateCallsStep parties rules now) acc).2,
        p.1 = id → p.2 = none
  | [], _, _, h1, h2 => ⟨h1, h2⟩
  | r :: rows, acc, hz, h1, h2 => by
      have hstep := updateCallsStep_zero parties rules now acc r id
        (hz r (List.mem_cons_self r rows)) h1 h2
      exact updateCalls_zero_go parties rules now id rows _
        (fun r' hr' => hz r' (List.mem_cons_of_mem _ hr')) hstep.1 hstep.2

/-- C10 (implicit): a live row whose `_totalVotes` is 0 and whose party
shares are all null yields `lead = 0` and a null leader key in
`raceCallStatus`, so `updateCalls` (over any row list in which every row
for that district is such a zero-vote row, starting from a registry without
the district) never writes a Call Registry entry for it and assigns `_call
= null` to each of its rows — at every phase, including phase 1. -/
theorem zero_vote_district_never_called (row : LiveRow) (parties : List String)
    (rules : List CallRule) (calls : List (String × Call)) (rows : List LiveRow)
    (now : ℤ)
    (hshare : ∀ p ∈ parties, row.share p = none)
    (htv : row.totalVotes = 0)
    (hrows : ∀ r ∈ rows, r.district_id = row.district_id → ∀ p ∈ parties, r.share p = none)
    (hreg : findCall calls row.district_id = none) :
    (raceCallStatus row parties rules).lead = 0 ∧
    (raceCallStatus row parties rules).leader = none ∧
    findCall (updateCalls calls rows parties rules now).1 row.district_id = none ∧
    ∀ p ∈ (updateCalls calls rows parties rules now).2,
      p.1 = row.district_id → p.2 = none := by
  have h1 := raceCallStatus_zero_shares row parties rules hshare
  have h2 := updateCalls_zero_go parties rules now row.district_id rows (calls, [])
    hrows hreg (by intro p hp; cases hp)
  exact ⟨h1.1, h1.2, h2.1, h2.2⟩

/-- Witness for C10's theorem: the zero-vote district `Z1` at phase 1 with
empty registry. -/
theorem zero_vote_district_never_called_witness :
    (raceCallStatus zeroRow pAB []).lead = 0 ∧
    (raceCallStatus zeroRow pAB []).leader = none ∧
    findCall (updateCalls [] [zeroRow] pAB [] 5).1 zeroRow.district_id = none ∧
    ∀ p ∈ (updateCalls [] [zeroRow] pAB [] 5).2,
      p.1 = zeroRow.district_id → p.2 = none :=
  zero_vote_district_never_called zeroRow pAB [] [] [zeroRow] 5
    (by intro p _; rfl) rfl
    (by intro r hr _ p _; rcases List.mem_singleton.mp hr with rfl; rfl)
    rfl

/-! ### C4 — full-reporting resolution -/

lemma raceCallStatus_full (row : LiveRow) (parties : List String)
    (rules : List CallRule) (h : 999/1000 ≤ phaseOf row) :
    raceCallStatus row parties rules =
      ⟨decide (0 < leadOf row parties), leadOf row parties, phaseOf row,
       if decide (0 < leadOf row parties) = true then "called" else "tossup",
       (topTwo row parties).1, (topTwo row parties).2⟩ := by
  simp only [raceCallStatus]
  rw [if_pos h]

/-- C4: at `phase ≥ 0.999`, `raceCallStatus` reports `called` exactly when
`lead > 0` (so a perfectly tied district, `lead = 0`, is never called and
is labelled `tossup`), and when there is a positive lead the call engine
records the current leader as winner for a district not yet in the
registry. -/
theorem full_reporting_resolution (row : LiveRow) (parties : List String)
    (rules : List CallRule) (h : 999/1000 ≤ phaseOf row) :
    ((raceCallStatus row parties rules).called = true ↔
      0 < (raceCallStatus row parties rules).lead) ∧
    ((raceCallStatus row parties rules).called = false →
      (raceCallStatus row parties rules).label = "tossup") ∧
    (∀ (calls : List (String × Call)) (now : ℤ) (k : String) (s : ℚ),
      findCall calls row.district_id = none →
      (raceCallStatus row parties rules).leader = some (k, s) →
      0 < (raceCallStatus row parties rules).lead →
      findCall (updateCalls calls [row] parties rules now).1 row.district_id
        = some ⟨k, now⟩) := by
  rw [raceCallStatus_full row parties rules h]
  refine ⟨by simp, ?_, ?_⟩
  · intro hc
    simp only at hc
    simp [hc]
  · intro calls now k s hreg hld hlead
    simp only at hld hlead
    show findCall (updateCallsStep parties rules now (calls, []) row).1 row.district_id
      = some ⟨k, now⟩
    simp only [updateCallsStep, hreg]
    rw [raceCallStatus_full row parties rules h]
    simp only [decide_eq_true hlead, if_true, hld]
    simp [findCall]

/-- Witness for C4's theorem: the tied district `T1` at phase 1 (lead 0)
with the default rules. -/
theorem full_reporting_resolution_witness :
    (999/1000 ≤ phaseOf tiedRow) ∧
    (((raceCallStatus tiedRow pAB []).called = true ↔
      0 < (raceCallStatus tiedRow pAB []).lead) ∧
    ((raceCallStatus tiedRow pAB []).called = false →
      (raceCallStatus tiedRow pAB []).label = "tossup") ∧
    (∀ (calls : List (String × Call)) (now : ℤ) (k : String) (s : ℚ),
      findCall calls tiedRow.district_id = none →
      (raceCallStatus tiedRow pAB []).leader = some (k, s) →
      0 < (raceCallStatus tiedRow pAB []).lead →
      findCall (updateCalls calls [tiedRow] pAB [] now).1 tiedRow.district_id
        = some ⟨k, now⟩)) :=
  ⟨by norm_num [phaseOf, tiedRow],
   full_reporting_resolution tiedRow pAB [] (by norm_num [phaseOf, tiedRow])⟩

/-! ### C5 — bias vector: zero mean, bounded amplitude -/

lemma le_foldr_max (l : List ℚ) : ∀ x ∈ l, x ≤ l.foldr max 0 := by
  induction l with
  | nil => intro x hx; cases hx
  | cons y t ih =>
      intro x hx
      rcases List.mem_cons.mp hx with rfl | hx
      · exact le_max_left _ _
      · exact le_trans (ih x hx) (le_max_right _ _)

lemma zip_map_snd_sum (ps : List String) (vs : List ℚ) (g : ℚ → ℚ)
    (h : vs.length ≤ ps.length) :
    (((ps.zip vs).map (fun pv => (pv.1, g pv.2))).map (fun pv => pv.2)).sum
      = (vs.map g).sum := by
  have h1 : (ps.zip vs).map (fun pv : String × ℚ => g pv.2)
      = ((ps.zip vs).map Prod.snd).map g := by
    rw [List.map_map]
    rfl
  calc (((ps.zip vs).map (fun pv => (pv.1, g pv.2))).map (fun pv => pv.2)).sum
      = ((ps.zip vs).map (fun pv : String × ℚ => g pv.2)).sum := by
        rw [List.map_map]
        rfl
    _ = (((ps.zip vs).map Prod.snd).map g).sum := by rw [h1]
    _ = (vs.map g).sum := by rw [List.map_snd_zip ps vs h]

/-- C5 (amended): for every district key, every party list of size ≥ 2,
and every **non-negative** amplitude, the bias values sum to zero exactly
(the model computes in exact rationals, so "within floating tolerance"
sharpens to equality) and each value's absolute magnitude is at most
`amp`.  (The unamended claim, quantified over every amplitude, fails for
negative `amp`: magnitudes are non-negative.) -/
theorem biasVectorFor_zero_mean_bounded (districtKey : String)
    (parties : List String) (amp : ℚ)
    (hn : 2 ≤ parties.length) (hamp : 0 ≤ amp) :
    ((biasVectorFor districtKey parties amp).map (fun pv => pv.2)).sum = 0 ∧
    ∀ pv ∈ biasVectorFor districtKey parties amp, |pv.2| ≤ amp := by
  simp only [biasVectorFor]
  set raw := parties.map (fun p => rand01 (districtKey ++ "|" ++ p) - 1/2) with hraw
  have hrlen : raw.length = parties.length := by simp [hraw]
  have hrne : raw.length ≠ 0 := by omega
  set mean := raw.sum / (if raw.length = 0 then 1 else (raw.length : ℚ)) with hmean
  set vec := raw.map (fun v => v - mean) with hvec
  have hvlen : vec.length = parties.length := by simp [hvec, hrlen]
  set maxAbs := max (1/1000000000) ((vec.map (fun v => |v|)).foldr max 0) with hmaxAbs
  have hpos : 0 < maxAbs := lt_of_lt_of_le (by norm_num) (le_max_left _ _)
  have hvsum : vec.sum = 0 := by
    rw [hvec, sum_map_sub_const, hmean, if_neg hrne]
    have : (raw.length : ℚ) ≠ 0 := by exact_mod_cast hrne
    field_simp
  constructor
  · rw [zip_map_snd_sum parties vec (fun v => v / maxAbs * amp) (le_of_eq hvlen)]
    have h1 : vec.map (fun v => v / maxAbs * amp)
        = vec.map (fun v => (amp / maxAbs) * v) :=
      List.map_congr_left (fun v _ => by ring)
    rw [h1, sum_map_mul_const, hvsum, mul_zero]
  · intro pv hpv
    rcases List.mem_map.mp hpv with ⟨q, hq, rfl⟩
    obtain ⟨a, b⟩ := q
    have hbv : b ∈ vec := (List.of_mem_zip hq).2
    have hble : |b| ≤ maxAbs :=
      le_trans (le_foldr_max _ _ (List.mem_map_of_mem (fun v => |v|) hbv))
        (le_max_right _ _)
    have habs : |b / maxAbs * amp| = |b| / maxAbs * amp := by
      rw [abs_mul, abs_div, abs_of_pos hpos, abs_of_nonneg hamp]
    rw [habs]
    have hdiv : |b| / maxAbs ≤ 1 := (div_le_one hpos).mpr hble
    calc |b| / maxAbs * amp ≤ 1 * amp :=
          mul_le_mul_of_nonneg_right hdiv hamp
      _ = amp := one_mul amp

/-- Witness for C5's theorem: district `D`, parties `[A, B]`, `amp = 1/5`. -/
theorem biasVectorFor_zero_mean_bounded_witness :
    (2 ≤ pAB.length ∧ (0 : ℚ) ≤ 1/5) ∧
    ((biasVectorFor "D" pAB (1/5)).map (fun pv => pv.2)).sum = 0 ∧
    ∀ pv ∈ biasVectorFor "D" pAB (1/5), |pv.2| ≤ 1/5 :=
  ⟨⟨by norm_num [pAB], by norm_num⟩,
   biasVectorFor_zero_mean_bounded "D" pAB (1/5) (by norm_num [pAB]) (by norm_num)⟩

/-- C5 counterexample to the claim as stated ("every amplitude"): at the
negative amplitude `amp = -1` the magnitude bound fails (magnitudes are
non-negative). -/
theorem biasVectorFor_amp_counterexample :
    ¬ ∀ pv ∈ biasVectorFor "D" ["A", "B"] (-1), |pv.2| ≤ -1 := by
  intro hall
  cases hx : biasVectorFor "D" ["A", "B"] (-1) with
  | nil =>
      have hlen : (biasVectorFor "D" ["A", "B"] (-1)).length = 2 := by
        simp [biasVectorFor]
      rw [hx] at hlen
      simp at hlen
  | cons x t =>
      have hmem : x ∈ biasVectorFor "D" ["A", "B"] (-1) := by
        rw [hx]
        exact List.mem_cons_self _ _
      have hle := hall x hmem
      have h0 := abs_nonneg x.2
      linarith

/-! ### C8 — national turnout weighting -/

lemma natFold_weights (parties : List String) :
    ∀ (rows : List NatRow) (a : NatAcc),
      (rows.foldl (natStep parties) a).eligibleWeighted
        = a.eligibleWeighted + (rows.map (fun r => r.eligible * natPhase parties r)).sum ∧
      (rows.foldl (natStep parties) a).turnoutWeighted
        = a.turnoutWeighted
          + (rows.map (fun r => r.turnout * r.eligible * natPhase parties r)).sum
  | [], a => by simp
  | r :: rows, a => by
      have ih := natFold_weights parties rows (natStep parties a r)
      rw [List.foldl_cons, List.map_cons, List.sum_cons, List.map_cons, List.sum_cons]
      refine ⟨?_, ?_⟩
      · rw [ih.1]
        simp only [natStep]
        ring
      · rw [ih.2]
        simp only [natStep]
        ring

/-- C8: `computeNational` returns `natTurnout` equal to the sum over rows
of `turnout * eligible * phase` divided by the sum of `eligible * phase`
(phase defaulting to 1 when `_phase` is absent and the row reports votes,
else 0), and `0` when the accumulated weight is zero; and on scenario C
(one district fully reported with turnout 80 and eligible 1000, one
unreported with eligible 500) it returns exactly 80. -/
theorem computeNational_turnout_weighting :
    (∀ (rows : List NatRow) (parties : List String),
      (computeNational rows parties).natTurnout =
        (if (rows.map (fun r => r.eligible * natPhase parties r)).sum = 0 then 0
         else (rows.map (fun r => r.turnout * r.eligible * natPhase parties r)).sum /
              (rows.map (fun r => r.eligible * natPhase parties r)).sum)) ∧
    (computeNational [natRowFull, natRowEmpty] pAB).natTurnout = 80 := by
  constructor
  · intro rows parties
    have h := natFold_weights parties rows ⟨parties.map (fun p => (p, 0)), 0, 0, 0⟩
    simp only [computeNational]
    rw [h.1, h.2]
    simp
  · simp [computeNational, natStep, natPhase, natRowFull, natRowEmpty, pAB]

/-! ### C7 — reporting-schedule entry bounds -/

lemma assignScheduleRow_bounds (startMs endMs : ℤ) (r1 r2 : ℚ) (did : String)
    (hwin : startMs < endMs) :
    startMs ≤ (assignScheduleRow startMs endMs r1 r2 did).1 ∧
    (assignScheduleRow startMs endMs r1 r2 did).1
      ≤ (assignScheduleRow startMs endMs r1 r2 did).2 ∧
    (assignScheduleRow startMs endMs r1 r2 did).2 ≤ endMs ∧
    (20 ≤ endMs - startMs →
      (assignScheduleRow startMs endMs r1 r2 did).1
        < (assignScheduleRow startMs endMs r1 r2 did).2) := by
  simp only [assignScheduleRow, jround]
  set span := max 1 ((endMs - startMs : ℤ) : ℚ) with hspan
  set bias := scheduleBias did with hbias
  set sf := min (9/10) (max (1/20) (bias + (r1 - 1/2) * (3/10))) with hsf
  set ef := min 1 (max (sf + 1/20) (sf + 1/4 + r2 * (1/4))) with hef
  have hsf_lb : 1/20 ≤ sf := le_min (by norm_num) (le_max_left _ _)
  have hsf_ub : sf ≤ 9/10 := min_le_left _ _
  have hef_ub : ef ≤ 1 := min_le_left _ _
  have hef_lb : sf + 1/20 ≤ ef := le_min (by linarith) (le_max_left _ _)
  have hspan_ge1 : (1 : ℚ) ≤ span := le_max_left _ _
  have hspan_eq : span = ((endMs - startMs : ℤ) : ℚ) := by
    rw [hspan]
    refine max_eq_right ?_
    have h1 : (1 : ℤ) ≤ endMs - startMs := by omega
    exact_mod_cast h1
  have hspan_pos : (0 : ℚ) < span := lt_of_lt_of_le one_pos hspan_ge1
  refine ⟨?_, ?_, ?_, ?_⟩
  · rw [Int.le_floor]
    have h0 : 0 ≤ sf * span := mul_nonneg (by linarith) (by linarith)
    linarith
  · apply Int.floor_le_floor
    have h0 : sf * span ≤ ef * span :=
      mul_le_mul_of_nonneg_right (by linarith) (by linarith)
    linarith
  · rw [Int.floor_le_iff]
    have h1 : ef * span ≤ 1 * span :=
      mul_le_mul_of_nonneg_right hef_ub (by linarith)
    rw [one_mul] at h1
    have h4 : span = (endMs : ℚ) - (startMs : ℚ) := by
      rw [hspan_eq]
      push_cast
      ring
    push_cast
    linarith [h1, h4]
  · intro h20
    have hspan20 : (20 : ℚ) ≤ span := by
      rw [hspan_eq]
      exact_mod_cast h20
    have hgap : (1 : ℚ) ≤ (ef - sf) * span := by
      have h1 : (1/20 : ℚ) ≤ ef - sf := by linarith
      have h2 := mul_le_mul h1 hspan20 (by norm_num) (by linarith)
      linarith
    have hexp : (ef - sf) * span = ef * span - sf * span := by ring
    have hfl : ⌊(startMs : ℚ) + sf * span + 1/2⌋ + 1
        ≤ ⌊(startMs : ℚ) + ef * span + 1/2⌋ := by
      calc ⌊(startMs : ℚ) + sf * span + 1/2⌋ + 1
          = ⌊(startMs : ℚ) + sf * span + 1/2 + (1 : ℤ)⌋ :=
            (Int.floor_add_int _ _).symm
        _ ≤ ⌊(startMs : ℚ) + ef * span + 1/2⌋ := by
            apply Int.floor_le_floor
            push_cast
            linarith
    omega

/-- C7 (amended): every entry produced by `assignReportingSchedule` for an
integer count window `startMs < endMs` and random draws in `[0,1)`
satisfies `startMs ≤ report_start ≤ report_end ≤ endMs`, and
`report_start < report_end` whenever the window spans at least 20 ms.
(The unamended strict inequality fails for sub-20 ms windows: rounding to
integer milliseconds can collapse the 0.05 fraction gap.) -/
theorem assignReportingSchedule_bounds (ids : List String) (startMs endMs : ℤ)
    (rand : ℕ → ℚ × ℚ) (hwin : startMs < endMs)
    (hrand : ∀ i, 0 ≤ (rand i).1 ∧ (rand i).1 < 1 ∧ 0 ≤ (rand i).2 ∧ (rand i).2 < 1) :
    ∀ e ∈ assignReportingSchedule ids startMs endMs rand,
      startMs ≤ e.2.1 ∧ e.2.1 ≤ e.2.2 ∧ e.2.2 ≤ endMs ∧
      (20 ≤ endMs - startMs → e.2.1 < e.2.2) := by
  intro e he
  rcases List.mem_map.mp he with ⟨q, _, rfl⟩
  exact assignScheduleRow_bounds startMs endMs (rand q.1).1 (rand q.1).2 q.2 hwin

/-- Witness for C7's theorem: a Seoul district over the window
`[0, 100]` with both random draws 0. -/
theorem assignReportingSchedule_bounds_witness :
    (0 : ℤ) ≤ (assignScheduleRow 0 100 0 0 "Seoul").1 ∧
    (assignScheduleRow 0 100 0 0 "Seoul").1 ≤ (assignScheduleRow 0 100 0 0 "Seoul").2 ∧
    (assignScheduleRow 0 100 0 0 "Seoul").2 ≤ 100 ∧
    (20 ≤ (100 : ℤ) - 0 →
      (assignScheduleRow 0 100 0 0 "Seoul").1 < (assignScheduleRow 0 100 0 0 "Seoul").2) :=
  assignReportingSchedule_bounds ["Seoul"] 0 100 (fun _ => (0, 0)) (by decide)
    (fun _ => by norm_num) ("Seoul", assignScheduleRow 0 100 0 0 "Seoul")
    (List.mem_singleton.mpr rfl)

/-- C7 counterexample to the claim's strict `report_start < report_end`:
for the 1 ms window `[0, 1]`, district `"X"`, and random draws
`r1 = 1/2`, `r2 = 0`, both endpoints round to 1. -/
theorem assignReportingSchedule_strict_counterexample :
    ¬ ∀ e ∈ assignReportingSchedule ["X"] 0 1 (fun _ => (1/2, 0)),
        e.2.1 < e.2.2 := by
  intro hall
  have he : ("X", assignScheduleRow 0 1 (1/2) 0 "X")
      ∈ assignReportingSchedule ["X"] 0 1 (fun _ => (1/2, 0)) :=
    List.mem_singleton.mpr rfl
  have hlt := hall _ he
  have h1 : containsCI "X" "Seoul" = false := by decide
  have h2 : containsCI "X" "Jeon" = false := by decide
  have h2b : containsCI "X" "Jeolla" = false := by decide
  have h3 : containsCI "X" "Hamgyeong" = false := by decide
  have h4 : containsCI "X" "Pyeong" = false := by decide
  have hbias : scheduleBias "X" = 1/2 := by
    simp [scheduleBias, h1, h2, h2b, h3, h4]
  have heval : assignScheduleRow 0 1 (1/2) 0 "X" = (1, 1) := by
    simp only [assignScheduleRow, jround, hbias]
    norm_num [min_def, max_def]
  rw [heval] at hlt
  exact absurd hlt (by decide)

/-! ### C3 — live allocation sum -/

lemma earlyWeight_ge (b p a : ℝ) : 1/5 ≤ earlyWeight b p a := by
  simp only [earlyWeight]
  exact le_max_left _ _

lemma schedPhase_nonneg (rs re now : ℤ) : 0 ≤ schedPhase rs re now := by
  unfold schedPhase
  split
  · norm_num
  · split
    · rename_i h1 h2
      have hc : ((rs : ℚ)) ≤ ((now : ℚ)) := by exact_mod_cast le_of_lt h2
      apply div_nonneg
      · push_cast
        linarith
      · exact le_trans zero_le_one (le_max_left _ _)
    · norm_num

/-- C3: for every schedule row, party list, and timestamp, `scaleRow` (the
per-row body of `scaleRowsBySchedule`, whose output appears in the mapped
result) produces non-negative per-party live counts whose sum equals
`round(totalFinal * phase)` exactly (with `totalFinal` the sum of the
clamped final counts, missing treated as 0); `_totalVotes` equals that
same sum; and when `_totalVotes = 0` every party's share is null. -/
theorem scaleRowsBySchedule_live_sum (parties : List String) (now : ℤ)
    (rows : List SchedRow) (r : SchedRow) (hr : r ∈ rows) :
    scaleRow parties now r ∈ scaleRowsBySchedule rows parties now ∧
    ((scaleRow parties now r).votesLive.map Prod.snd).sum
      = jroundR ((parties.map (fun p => max 0 ((r.votes p).getD 0))).sum
          * ((schedPhase r.report_start r.report_end now : ℚ) : ℝ)) ∧
    (∀ pv ∈ (scaleRow parties now r).votesLive, 0 ≤ pv.2) ∧
    (scaleRow parties now r).totalVotes
      = ((scaleRow parties now r).votesLive.map Prod.snd).sum ∧
    ((scaleRow parties now r).totalVotes = 0 →
      ∀ pe ∈ (scaleRow parties now r).party, pe.2.2 = none) := by
  refine ⟨List.mem_map_of_mem _ hr, ?_⟩
  simp only [scaleRow]
  set phase := schedPhase r.report_start r.report_end now with hphase
  set finals : List ℝ := parties.map (fun p => max 0 ((r.votes p).getD 0)) with hfinals
  set tf : ℝ := finals.sum with htf
  set reported : ℤ := max 0 (jroundR (tf * ((phase : ℚ) : ℝ))) with hreported
  set weights : List ℝ := parties.map (fun p =>
    (max 0 ((r.votes p).getD 0)) *
      earlyWeight (((List.lookup p (biasVectorFor r.district_id parties (1/5))).getD 0 : ℚ) : ℝ)
        ((phase : ℚ) : ℝ) (5/4)) with hweights
  set alloc := apportion reported weights with halloc
  have hw_nn : ∀ w ∈ weights, 0 ≤ w := by
    intro w hw
    rcases List.mem_map.mp hw with ⟨p, _, rfl⟩
    exact mul_nonneg (le_max_left _ _)
      (le_trans (by norm_num) (earlyWeight_ge _ _ _))
  have halen : alloc.length = parties.length := by
    rw [halloc, apportion_length, hweights, List.length_map]
  have hzip : (parties.zip alloc).map Prod.snd = alloc :=
    List.map_snd_zip _ _ (le_of_eq halen)
  have htf_nn : 0 ≤ tf := by
    rw [htf]
    apply List.sum_nonneg
    intro x hx
    rcases List.mem_map.mp hx with ⟨p, _, rfl⟩
    exact le_max_left _ _
  have hph_nn : 0 ≤ ((phase : ℚ) : ℝ) := by
    have := schedPhase_nonneg r.report_start r.report_end now
    rw [← hphase] at this
    exact_mod_cast this
  have hjr_nn : 0 ≤ jroundR (tf * ((phase : ℚ) : ℝ)) := by
    unfold jroundR
    apply Int.floor_nonneg.mpr
    have := mul_nonneg htf_nn hph_nn
    linarith
  have hrep_eq : reported = jroundR (tf * ((phase : ℚ) : ℝ)) := by
    rw [hreported]
    exact max_eq_right hjr_nn
  have hsum : alloc.sum = reported := by
    rw [halloc, apportion_sum _ _ hw_nn]
    rcases eq_or_lt_of_le htf_nn with htf0 | htfpos
    · have hprod : tf * ((phase : ℚ) : ℝ) = 0 := by
        rw [← htf0, zero_mul]
      have hjr0 : jroundR (tf * ((phase : ℚ) : ℝ)) = 0 := by
        rw [hprod]
        unfold jroundR
        norm_num
      have hrep0 : reported = 0 := by rw [hrep_eq, hjr0]
      rw [hrep0]
      simp
    · have hws : 0 < weights.sum := by
        have hpt : ∀ p ∈ parties,
            (1/5 : ℝ) * (max 0 ((r.votes p).getD 0)) ≤
              (max 0 ((r.votes p).getD 0)) *
                earlyWeight
                  (((List.lookup p (biasVectorFor r.district_id parties (1/5))).getD 0 : ℚ) : ℝ)
                  ((phase : ℚ) : ℝ) (5/4) := by
          intro p _
          rw [mul_comm]
          exact mul_le_mul_of_nonneg_left (earlyWeight_ge _ _ _) (le_max_left _ _)
        have hle := List.sum_le_sum hpt
        rw [List.sum_map_mul_left] at hle
        rw [hweights]
        calc (0 : ℝ) < 1/5 * tf := by linarith
          _ ≤ _ := by
            rw [htf, hfinals]
            exact hle
      by_cases hrp : 0 < reported
      · rw [if_pos ⟨hws, hrp⟩]
      · have : reported = 0 := by
          have h0 : 0 ≤ reported := by
            rw [hreported]
            exact le_max_left _ _
          omega
        rw [this]
        simp [hws]
  refine ⟨?_, ?_, ?_, ?_⟩
  · rw [hzip, hsum, hrep_eq]
  · intro pv hpv
    obtain ⟨a, b⟩ := pv
    have hb : b ∈ alloc := (List.of_mem_zip hpv).2
    exact apportion_nonneg _ _ hw_nn b hb
  · trivial
  · intro htot pe hpe
    rcases List.mem_map.mp hpe with ⟨q, _, rfl⟩
    simp only [htot]
    simp

/-- Witness for C3's theorem: scenario A's district (600/400 finals) fully
reported (`now = 100 = report_end`). -/
theorem scaleRowsBySchedule_live_sum_witness :
    scaleRow pAB 100 schedRowA ∈ scaleRowsBySchedule [schedRowA] pAB 100 ∧
    ((scaleRow pAB 100 schedRowA).votesLive.map Prod.snd).sum
      = jroundR ((pAB.map (fun p => max 0 ((schedRowA.votes p).getD 0))).sum
          * ((schedPhase schedRowA.report_start schedRowA.report_end 100 : ℚ) : ℝ)) ∧
    (∀ pv ∈ (scaleRow pAB 100 schedRowA).votesLive, 0 ≤ pv.2) ∧
    (scaleRow pAB 100 schedRowA).totalVotes
      = ((scaleRow pAB 100 schedRowA).votesLive.map Prod.snd).sum ∧
    ((scaleRow pAB 100 schedRowA).totalVotes = 0 →
      ∀ pe ∈ (scaleRow pAB 100 schedRowA).party, pe.2.2 = none) :=
  scaleRowsBySchedule_live_sum pAB 100 [schedRowA] schedRowA (List.mem_singleton.mpr rfl)

end ElectionSim
